import Mathlib

/-!
Verification of the document search engine in `signac/core/search_engine.py`.

The module is embedded shallowly:

* Python values (scalars, lists, dicts with string keys) become the inductive
  type `Doc`; bare scalars are `PyVal`.
* Exceptions (`KeyError`, `TypeError`, `AttributeError`, `ValueError`,
  `RuntimeError`, `IndexError`) become `Except PyErr`.
* Python sets are modelled as duplicate-free lists built with `setAdd`;
  dicts used as tables become association lists with first-match lookup.
* The engine's pluggable hash function (`hash_` argument, default `hash`)
  is instantiated with the injective "hash" that maps a flattened branch
  tuple to itself, so a path-hash is simply the flat tuple `List PyVal`.
  Two branches with identical flat tuples hash identically, as required.
* Generators are modelled by the eagerly computed list of their yields;
  an exception raised while a caller drains a generator aborts the whole
  surrounding computation, which the `Except` monad models faithfully.
-/

/-- Scalar Python values appearing in documents, filters and include
specifications: ints, strings, booleans and `None`. -/
inductive PyVal where
  | int : Int → PyVal
  | str : String → PyVal
  | bool : Bool → PyVal
  | none : PyVal
deriving DecidableEq, Repr

/-- Python exception classes raised by the module. -/
inductive PyErr where
  | keyError : PyErr
  | typeError : PyErr
  | attributeError : PyErr
  | valueError : PyErr
  | runtimeError : PyErr
  | indexError : PyErr
deriving DecidableEq, Repr

/-- A Python value as traversed by the engine: a scalar leaf, a list, or a
mapping with string keys (an association list, in iteration order). -/
inductive Doc where
  | leaf : PyVal → Doc
  | list : List Doc → Doc
  | map : List (String × Doc) → Doc

/-- A branch yielded by `_traverse_tree`: either a bare scalar (`yield t`)
or a nested pair `(k, i)` (`yield k, i`). -/
inductive Branch where
  | leaf : PyVal → Branch
  | node : String → Branch → Branch
deriving DecidableEq, Repr

/-- Python truthiness of a scalar. -/
def PyVal.truthy : PyVal → Bool
  | .int n => n ≠ 0
  | .str s => s ≠ ""
  | .bool b => b
  | .none => false

/-- Python truthiness of a value (`if not include.get(k, False)`). -/
def Doc.truthy : Doc → Bool
  | .leaf v => v.truthy
  | .list xs => !xs.isEmpty
  | .map kvs => !kvs.isEmpty

/-- First-match association lookup, the behaviour of `dict.get` (a Python
dict cannot hold duplicate keys, so first-match agrees with it). -/
def lookupD : List (String × Doc) → String → Option Doc
  | [], _ => Option.none
  | (k, v) :: rest, key => if k = key then some v else lookupD rest key

mutual

/-- Embeds `_traverse_tree(t, include=None)`.  The `include is False` check
comes first; lists recurse element-wise with the same directive; for a
mapping, a directive of `None` (either the Python `None` default or a
`None` value found in an include mapping) or `True` descends every key
without restriction, a mapping directive descends exactly the keys it maps
to a truthy value, and any other directive hits `include.get` and raises
`AttributeError` as soon as the mapping has a key; scalars terminate a
branch. -/
def traverseTree : Doc → Option Doc → Except PyErr (List Branch)
  | _, some (.leaf (.bool false)) => .ok []
  | .list xs, inc => travList xs inc
  | .map kvs, Option.none => travMapFull kvs
  | .map kvs, some (.leaf .none) => travMapFull kvs
  | .map kvs, some (.leaf (.bool true)) => travMapFull kvs
  | .map kvs, some (.map m) => travMapIncl kvs m
  | .map kvs, _ => if kvs.isEmpty then .ok [] else .error .attributeError
  | .leaf v, _ => .ok [.leaf v]

/-- The list case of `_traverse_tree`: every element is traversed with the
same include directive and the branches are concatenated. -/
def travList : List Doc → Option Doc → Except PyErr (List Branch)
  | [], _ => .ok []
  | x :: xs, inc =>
    match traverseTree x inc with
    | .error e => .error e
    | .ok bs =>
      match travList xs inc with
      | .error e => .error e
      | .ok rs => .ok (bs ++ rs)

/-- The mapping case of `_traverse_tree` when `include is None or include is
True`: each key is descended with `include=None` and its branches are
wrapped as `(k, i)` pairs. -/
def travMapFull : List (String × Doc) → Except PyErr (List Branch)
  | [] => .ok []
  | (k, v) :: rest =>
    match traverseTree v Option.none with
    | .error e => .error e
    | .ok bs =>
      match travMapFull rest with
      | .error e => .error e
      | .ok rs => .ok (bs.map (Branch.node k) ++ rs)

/-- The mapping case of `_traverse_tree` with a mapping include directive:
a key whose directive entry is absent or falsy is skipped
(`if not include.get(k, False): continue`), otherwise the key is descended
with its directive entry (`include.get(k)`). -/
def travMapIncl : List (String × Doc) → List (String × Doc) → Except PyErr (List Branch)
  | [], _ => .ok []
  | (k, v) :: rest, m =>
    match lookupD m k with
    | Option.none => travMapIncl rest m
    | some g =>
      if g.truthy then
        match traverseTree v (some g) with
        | .error e => .error e
        | .ok bs =>
          match travMapIncl rest m with
          | .error e => .error e
          | .ok rs => .ok (bs.map (Branch.node k) ++ rs)
      else travMapIncl rest m

end

/-- Embeds `tuple(_flatten(branch))` applied to one inner element of a
branch tuple: keys (strings) are yielded whole, the nested pair is
recursed into, and the final scalar is yielded. -/
def flattenRest : Branch → List PyVal
  | .leaf v => [v]
  | .node k r => .str k :: flattenRest r

/-- Embeds `tuple(_flatten(branch))`.  A branch that is a nested pair
flattens to its key sequence followed by the leaf value.  A bare scalar
branch is handed to `for i in container`: a string iterates over its
one-character substrings, every other scalar is not iterable and raises
`TypeError`. -/
def flattenBranch : Branch → Except PyErr (List PyVal)
  | .leaf (.str s) => .ok (s.toList.map (fun c => .str (String.mk [c])))
  | .leaf _ => .error .typeError
  | .node k r => .ok (.str k :: flattenRest r)

/-- Flatten each branch in turn, as the consumers' loops do
(`tuple(_flatten(branch))` per yielded branch). -/
def flattenAll : List Branch → Except PyErr (List (List PyVal))
  | [] => .ok []
  | b :: bs =>
    match flattenBranch b with
    | .error e => .error e
    | .ok fl =>
      match flattenAll bs with
      | .error e => .error e
      | .ok ts => .ok (fl :: ts)

/-- Traverse a tree and flatten every resulting branch, as every consumer
of `_traverse_tree` does. -/
def branchTuples (t : Doc) (inc : Option Doc) : Except PyErr (List (List PyVal)) :=
  match traverseTree t inc with
  | .error e => .error e
  | .ok bs => flattenAll bs

/-- `set.add` on the model of a Python set: append the element unless it is
already a member. -/
def setAdd (s : List PyVal) (x : PyVal) : List PyVal :=
  if x ∈ s then s else s ++ [x]

/-- `set.intersection`: the members of `a` that are also members of `b`. -/
def setInter (a b : List PyVal) : List PyVal :=
  a.filter (fun x => x ∈ b)

/-- `self.index.get(h, set())`: the id set stored under a path-hash, or the
empty set when the hash is absent. -/
def indexGet (idx : List (List PyVal × List PyVal)) (h : List PyVal) : List PyVal :=
  match idx with
  | [] => []
  | (h', s) :: rest => if h' = h then s else indexGet rest h

/-- `index[h].add(i)` on a `defaultdict(set)`: create the entry if absent,
otherwise add to the stored set. -/
def indexAdd (idx : List (List PyVal × List PyVal)) (h : List PyVal) (i : PyVal) :
    List (List PyVal × List PyVal) :=
  match idx with
  | [] => [(h, [i])]
  | (h', s) :: rest => if h' = h then (h', setAdd s i) :: rest else (h', s) :: indexAdd rest h i

/-- `included[h] = v` on a Python dict: overwrite in place or append. -/
def tblSet (tbl : List (List PyVal × PyVal)) (h : List PyVal) (v : PyVal) :
    List (List PyVal × PyVal) :=
  match tbl with
  | [] => [(h, v)]
  | (h', v') :: rest => if h' = h then (h', v) :: rest else (h', v') :: tblSet rest h v

/-- `self.included.get(h, False)`. -/
def tblGet (tbl : List (List PyVal × PyVal)) (h : List PyVal) : PyVal :=
  match tbl with
  | [] => .bool false
  | (h', v) :: rest => if h' = h then v else tblGet rest h

/-- The three structures produced by `_build_index` and stored on the
engine: the id set, the branch-hash index, and the included-paths table
(`None` when no include specification was given). -/
structure Engine where
  ids : List PyVal
  index : List (List PyVal × List PyVal)
  included : Option (List (List PyVal × PyVal))
deriving DecidableEq, Repr

/-- The include-specification half of `_build_index`: for each flattened
branch `f` of the include tree, record `included[hash(f[:-1])] = f[-1]`;
`f[-1]` on an empty tuple raises `IndexError`. -/
def includedFold : List (List PyVal) → List (List PyVal × PyVal) →
    Except PyErr (List (List PyVal × PyVal))
  | [], tbl => .ok tbl
  | f :: fs, tbl =>
    match f.getLast? with
    | Option.none => .error .indexError
    | some v => includedFold fs (tblSet tbl f.dropLast v)

/-- Build the included-paths table: `None` when no include specification
was supplied, otherwise the table recorded from the flattened spec. -/
def buildIncluded (inc : Option Doc) : Except PyErr (Option (List (List PyVal × PyVal))) :=
  match inc with
  | Option.none => .ok Option.none
  | some t =>
    match branchTuples t Option.none with
    | .error e => .error e
    | .ok fs =>
      match includedFold fs [] with
      | .error e => .error e
      | .ok tbl => .ok (some tbl)

/-- `doc['_id']`: subscripting a mapping looks the key up and raises
`KeyError` when absent; subscripting a scalar or a list with a string
raises `TypeError`. -/
def Doc.getItem : Doc → String → Except PyErr Doc
  | .map kvs, k =>
    match lookupD kvs k with
    | some v => .ok v
    | Option.none => .error .keyError
  | _, _ => .error .typeError

/-- The document half of `_build_index`: for each document in order, add
`doc['_id']` to the id set (`set.add` raises `TypeError` on an unhashable
id, i.e. a list or mapping), then add the id under the hash of every
flattened branch of the document. -/
def buildIndexDocs : List Doc → Option Doc → List PyVal →
    List (List PyVal × List PyVal) →
    Except PyErr (List PyVal × List (List PyVal × List PyVal))
  | [], _, ids, idx => .ok (ids, idx)
  | d :: ds, inc, ids, idx =>
    match d.getItem "_id" with
    | .error e => .error e
    | .ok (.leaf v) =>
      match branchTuples d inc with
      | .error e => .error e
      | .ok ts => buildIndexDocs ds inc (setAdd ids v) (ts.foldl (fun a f => indexAdd a f v) idx)
    | .ok _ => .error .typeError

/-- Embeds `_build_index` (and hence `__init__`): the included-paths table
is computed from the include specification first, then the documents are
indexed; any exception aborts construction before an engine exists. -/
def buildIndex (docs : Option (List Doc)) (inc : Option Doc) : Except PyErr Engine :=
  match buildIncluded inc with
  | .error e => .error e
  | .ok included =>
    match docs with
    | Option.none => .ok ⟨[], [], included⟩
    | some ds =>
      match buildIndexDocs ds inc [] [] with
      | .error e => .error e
      | .ok (ids, idx) => .ok ⟨ids, idx, included⟩

mutual

/-- Embeds `_valid_filter`: mapping values are checked recursively
(`all(_valid_filter(v) for v in f.values())`), and a non-mapping is valid
exactly when it is not a list. -/
def validFilter : Doc → Bool
  | .map kvs => validFilterVals kvs
  | .list _ => false
  | .leaf _ => true

/-- The `all(...)` over a mapping's values in `_valid_filter`. -/
def validFilterVals : List (String × Doc) → Bool
  | [] => true
  | (_, v) :: rest => validFilter v && validFilterVals rest

end

/-- The slice `f[:-i]` of a flattened branch: the empty tuple when `i = 0`
(negative zero is zero), otherwise the tuple without its last `i`
elements. -/
def pySliceNeg (f : List PyVal) (i : Nat) : List PyVal :=
  if i = 0 then [] else f.take (f.length - i)

/-- The inner loop of `_filter_supported` on one flattened branch: for
`i in range(len(f))`, look `f[:-i]` up in the included-paths table and
accept the branch as soon as a truthy entry is found. -/
def branchCheckCode (tbl : List (List PyVal × PyVal)) (f : List PyVal) : Bool :=
  (List.range f.length).any (fun i => (tblGet tbl (pySliceNeg f i)).truthy)

/-- Embeds `_filter_supported`: a pass-through `True` when no include
specification was recorded, otherwise every flattened branch of the filter
must pass the prefix check. -/
def filterSupported (e : Engine) (flt : Doc) : Except PyErr Bool :=
  match e.included with
  | Option.none => .ok true
  | some tbl =>
    match branchTuples flt Option.none with
    | .error e => .error e
    | .ok ts => .ok (ts.all (fun f => branchCheckCode tbl f))

/-- Embeds `check_filter`: `True` for a `None` filter, `ValueError` for an
invalid filter, `RuntimeError` for an unsupported one, and the implicit
`None` return on the success path. -/
def checkFilter (e : Engine) (f : Option Doc) : Except PyErr (Option Bool) :=
  match f with
  | Option.none => .ok (some true)
  | some flt =>
    if validFilter flt = false then .error .valueError
    else
      match filterSupported e flt with
      | .error err => .error err
      | .ok true => .ok Option.none
      | .ok false => .error .runtimeError

/-- `len(filter)`: the number of keys of a mapping, the length of a list
or string; other scalars have no length and raise `TypeError`. -/
def Doc.pyLen : Doc → Except PyErr Nat
  | .leaf (.str s) => .ok s.length
  | .leaf _ => .error .typeError
  | .list xs => .ok xs.length
  | .map kvs => .ok kvs.length

/-- The progressive intersection loop of `find`: starting from the first
branch's candidate set, intersect with each remaining branch's candidate
set. -/
def interFold (idx : List (List PyVal × List PyVal)) :
    List (List PyVal) → List PyVal → List PyVal
  | [], r => r
  | t :: ts, r => interFold idx ts (setInter r (indexGet idx t))

/-- Embeds `find` (with the yielded ids collected into a list): validate
the filter, yield every id for a `None` or empty filter, otherwise look up
and intersect the candidate sets of the filter's flattened branches; a
non-empty filter with no branches leaves `result` as `None` and yields
nothing. -/
def find (e : Engine) (f : Option Doc) : Except PyErr (List PyVal) :=
  match checkFilter e f with
  | .error err => .error err
  | .ok _ =>
    match f with
    | Option.none => .ok e.ids
    | some flt =>
      match flt.pyLen with
      | .error err => .error err
      | .ok n =>
        if n = 0 then .ok e.ids
        else
          match branchTuples flt Option.none with
          | .error err => .error err
          | .ok [] => .ok []
          | .ok (t :: ts) => .ok (interFold e.index ts (indexGet e.index t))

/-- Embeds `__len__`: the number of indexed documents. -/
def size (e : Engine) : Nat := e.ids.length

/-! ### Concrete instances used by the scenario claims -/

/-- The two documents of the spec's scenario. -/
def docs1 : List Doc :=
  [ .map [("_id", .leaf (.int 1)), ("a", .leaf (.int 1)), ("b", .map [("c", .leaf (.int 2))])]
  , .map [("_id", .leaf (.int 2)), ("a", .leaf (.int 1)), ("b", .map [("c", .leaf (.int 3))])] ]

/-- The engine the scenario's construction produces. -/
def eng1 : Engine :=
  ⟨ [.int 1, .int 2]
  , [ ([.str "_id", .int 1], [.int 1])
    , ([.str "a", .int 1], [.int 1, .int 2])
    , ([.str "b", .str "c", .int 2], [.int 1])
    , ([.str "_id", .int 2], [.int 2])
    , ([.str "b", .str "c", .int 3], [.int 2]) ]
  , Option.none ⟩

/-- The include specification `{"a": True, "b": False}`. -/
def incl5 : Doc := .map [("a", .leaf (.bool true)), ("b", .leaf (.bool false))]

/-- The included-paths table recorded for `incl5`. -/
def tbl5 : List (List PyVal × PyVal) :=
  [([.str "a"], .bool true), ([.str "b"], .bool false)]

/-- The engine built from `docs1` with include specification `incl5`. -/
def eng5 : Engine :=
  ⟨ [.int 1, .int 2]
  , [([.str "a", .int 1], [.int 1, .int 2])]
  , some tbl5 ⟩

/-- C1.  With the scenario documents indexed with no include specification,
`find({"a": 1})` yields exactly the id set `{1, 2}`, `find({"a": 1, "b":
{"c": 2}})` yields exactly `{1}`, `find({"b": {"c": 9}})` yields nothing,
and `__len__` returns 2. -/
theorem c1_scenario :
    buildIndex (some docs1) Option.none = .ok eng1
  ∧ (∃ r, find eng1 (some (.map [("a", .leaf (.int 1))])) = .ok r
        ∧ ∀ x, x ∈ r ↔ (x = .int 1 ∨ x = .int 2))
  ∧ (∃ r, find eng1 (some (.map [("a", .leaf (.int 1)), ("b", .map [("c", .leaf (.int 2))])])) = .ok r
        ∧ ∀ x, x ∈ r ↔ x = .int 1)
  ∧ find eng1 (some (.map [("b", .map [("c", .leaf (.int 9))])])) = .ok []
  ∧ size eng1 = 2 := by
  refine ⟨rfl, ⟨[.int 1, .int 2], rfl, ?_⟩, ⟨[.int 1], rfl, ?_⟩, rfl, rfl⟩
  · intro x; simp
  · intro x; simp

/-- The single document of the intersection counterexample. -/
def cexDocs3 : List Doc := [ .map [("_id", .leaf (.int 1)), ("b", .leaf (.int 1))] ]

/-- The engine built from `cexDocs3` with no include specification. -/
def eng3 : Engine :=
  ⟨ [.int 1]
  , [([.str "_id", .int 1], [.int 1]), ([.str "b", .int 1], [.int 1])]
  , Option.none ⟩

/-- C3, counterexample.  The filters `F1 = {"a": {}}` and `F2 = {"b": 1}`
have disjoint top-level keys, yet on the engine for `cexDocs3` the merged
filter `{"a": {}, "b": 1}` yields `{1}` while `find(F1)` yields nothing:
the merged result is not the intersection of the two results.  The culprit
is a non-empty filter whose flattening produces no branches: it selects
nothing, but contributes nothing to the merged filter's intersection. -/
theorem c3_counterexample :
    buildIndex (some cexDocs3) Option.none = .ok eng3
  ∧ find eng3 (some (.map [("a", .map [])])) = .ok []
  ∧ find eng3 (some (.map [("b", .leaf (.int 1))])) = .ok [.int 1]
  ∧ find eng3 (some (.map [("a", .map []), ("b", .leaf (.int 1))])) = .ok [.int 1]
  ∧ PyVal.int 1 ∈ [PyVal.int 1]
  ∧ PyVal.int 1 ∉ setInter [] [PyVal.int 1] := by
  refine ⟨rfl, rfl, rfl, rfl, by simp, by simp [setInter]⟩

/-- C5, counterexample.  With `include = {"a": True, "b": False}`, the
claim asserts `find({"b": x})` raises `UnsupportedFilterError` for every
value `x`.  It fails at `x = {}` (an empty mapping), where `find` succeeds
and yields nothing, and at `x = ["x", "y"]`, where `find` raises
`InvalidFilterError` (`ValueError`) instead. -/
theorem c5_counterexample :
    buildIndex (some docs1) (some incl5) = .ok eng5
  ∧ find eng5 (some (.map [("b", .map [])])) = .ok []
  ∧ find eng5 (some (.map [("b", .list [.leaf (.str "x"), .leaf (.str "y")])]))
      = .error .valueError := ⟨rfl, rfl, rfl⟩

/-- C9, counterexample.  A truthy non-mapping, non-boolean include
directive does not descend unconditionally: at a non-empty mapping node it
raises `AttributeError` (`include.get` on an `int`), unlike the
unrestricted traversal of the same node.  And a key mapped by a mapping
directive to an empty nested mapping is not descended into: the empty
mapping is falsy, so the key is skipped rather than treated as "descend
and decide per subtree". -/
theorem c9_counterexample :
    traverseTree (.map [("a", .leaf (.int 1))]) (some (.leaf (.int 2))) = .error .attributeError
  ∧ traverseTree (.map [("a", .leaf (.int 1))]) Option.none = .ok [.node "a" (.leaf (.int 1))]
  ∧ traverseTree (.map [("a", .leaf (.int 5))]) (some (.map [("a", .map [])])) = .ok []
  := ⟨rfl, rfl, rfl⟩

/-- C4.  On any engine produced by construction, `find(None)` and
`find({})` each yield exactly the id set, and a `None` or empty filter
passes `check_filter` without raising (returning `True` and the implicit
`None` respectively). -/
theorem c4_empty_filter (docs : Option (List Doc)) (inc : Option Doc) (e : Engine)
    (hbuild : buildIndex docs inc = .ok e) :
    find e Option.none = .ok e.ids
  ∧ find e (some (.map [])) = .ok e.ids
  ∧ checkFilter e Option.none = .ok (some true)
  ∧ checkFilter e (some (.map [])) = .ok Option.none := by
  clear hbuild
  obtain ⟨ids, idx, incl⟩ := e
  cases incl with
  | none => exact ⟨rfl, rfl, rfl, rfl⟩
  | some tbl => exact ⟨rfl, rfl, rfl, rfl⟩

/-- C4, witness: the scenario engine. -/
theorem c4_witness :
    find eng1 Option.none = .ok eng1.ids
  ∧ find eng1 (some (.map [])) = .ok eng1.ids
  ∧ checkFilter eng1 Option.none = .ok (some true)
  ∧ checkFilter eng1 (some (.map [])) = .ok Option.none :=
  c4_empty_filter (some docs1) Option.none eng1 rfl

mutual

/-- Claim-side predicate for C7: some mapping value anywhere in the
nesting is a raw sequence. -/
def hasListValue : Doc → Bool
  | .leaf _ => false
  | .list xs => hasListValueL xs
  | .map kvs => hasListValueM kvs

/-- `hasListValue` under a list node. -/
def hasListValueL : List Doc → Bool
  | [] => false
  | x :: xs => hasListValue x || hasListValueL xs

/-- `hasListValue` over a mapping's entries: an entry whose value is
itself a list, or contains one deeper down. -/
def hasListValueM : List (String × Doc) → Bool
  | [] => false
  | (_, v) :: rest =>
    (match v with | .list _ => true | _ => false) || hasListValue v || hasListValueM rest

end

mutual

/-- A structurally valid filter contains no list-valued mapping entry. -/
theorem validFilter_no_list : ∀ f : Doc, validFilter f = true → hasListValue f = false
  | .leaf _, _ => rfl
  | .list _, h => by simp [validFilter] at h
  | .map kvs, h => by
    simp only [validFilter] at h
    simpa only [hasListValue] using validFilterVals_no_list kvs h

/-- The entry-wise version of `validFilter_no_list`. -/
theorem validFilterVals_no_list :
    ∀ kvs : List (String × Doc), validFilterVals kvs = true → hasListValueM kvs = false
  | [], _ => rfl
  | (k, v) :: rest, h => by
    simp only [validFilterVals, Bool.and_eq_true] at h
    obtain ⟨h1, h2⟩ := h
    have hrest := validFilterVals_no_list rest h2
    cases v with
    | list xs => simp [validFilter] at h1
    | leaf w => simp [hasListValueM, hasListValue, hrest]
    | map m =>
      have hv := validFilter_no_list (.map m) h1
      simp [hasListValueM, hv, hrest]

end

/-- C7.  `check_filter` rejects with `InvalidFilterError` (`ValueError`)
every filter in which a mapping value anywhere in the nesting is a raw
sequence; in particular `check_filter({"tags": ["x", "y"]})` fails with
`InvalidFilterError` on every engine. -/
theorem c7_list_rejection :
    (∀ (e : Engine) (f : Doc), hasListValue f = true →
        checkFilter e (some f) = .error .valueError)
  ∧ (∀ e : Engine,
        checkFilter e (some (.map [("tags", .list [.leaf (.str "x"), .leaf (.str "y")])]))
          = .error .valueError) := by
  have main : ∀ (e : Engine) (f : Doc), hasListValue f = true →
      checkFilter e (some f) = .error .valueError := by
    intro e f hf
    have hv : validFilter f = false := by
      cases hval : validFilter f with
      | false => rfl
      | true => rw [validFilter_no_list f hval] at hf; exact absurd hf (by simp)
    simp [checkFilter, hv]
  exact ⟨main, fun e => main e _ rfl⟩

/-- C7, witness: the scenario engine rejects the `tags` filter. -/
theorem c7_witness :
    checkFilter eng1 (some (.map [("tags", .list [.leaf (.str "x"), .leaf (.str "y")])]))
      = .error .valueError :=
  c7_list_rejection.2 eng1

/-- Claim-side acceptance condition for C6: some prefix of the branch's
key sequence, of any length from the full key-prefix down to length 0, has
a truthy entry in the included-paths table.  A flattened branch `f` is its
key sequence followed by the leaf value, so these prefixes are exactly
`f.take j` for `j < f.length`. -/
def branchSupportedSpec (tbl : List (List PyVal × PyVal)) (f : List PyVal) : Bool :=
  (List.range f.length).any (fun j => (tblGet tbl (f.take j)).truthy)

/-- The code's slice walk (`f[:-i]` for `i in range(len(f))`) checks the
same prefixes as the claim's description: all proper prefixes of the flat
tuple, i.e. all prefixes of the key sequence including the empty one. -/
theorem branchCheck_eq_spec (tbl : List (List PyVal × PyVal)) (f : List PyVal) :
    branchCheckCode tbl f = branchSupportedSpec tbl f := by
  unfold branchCheckCode branchSupportedSpec
  rw [Bool.eq_iff_iff]
  simp only [List.any_eq_true, List.mem_range]
  constructor
  · rintro ⟨i, hi, ht⟩
    by_cases h0 : i = 0
    · subst h0
      exact ⟨0, hi, by simpa [pySliceNeg] using ht⟩
    · refine ⟨f.length - i, by omega, ?_⟩
      simpa [pySliceNeg, h0] using ht
  · rintro ⟨j, hj, ht⟩
    by_cases h0 : j = 0
    · subst h0
      exact ⟨0, hj, by simpa [pySliceNeg] using ht⟩
    · refine ⟨f.length - j, by omega, ?_⟩
      have h1 : f.length - j ≠ 0 := by omega
      have h2 : f.length - (f.length - j) = j := by omega
      simpa [pySliceNeg, h1, h2] using ht

/-- C6.  When an include specification was supplied, the support check
flattens the filter into branches and accepts a branch iff some prefix of
its key sequence, of any length from the full key-prefix down to length 0,
has a truthy entry in the included-paths table; with no include
specification the check passes for every filter. -/
theorem c6_support_check (e : Engine) :
    (e.included = Option.none → ∀ f : Doc, filterSupported e f = .ok true)
  ∧ (∀ tbl, e.included = some tbl → ∀ (f : Doc) (ts : List (List PyVal)),
      branchTuples f Option.none = .ok ts →
      filterSupported e f = .ok (ts.all (fun fl => branchSupportedSpec tbl fl))) := by
  constructor
  · intro h f
    unfold filterSupported
    rw [h]
  · intro tbl h f ts hts
    unfold filterSupported
    rw [h, hts]
    simp [branchCheck_eq_spec]

/-- C6, witness: on the engine built with `incl5`, the filter
`{"a": 1}` is supported. -/
theorem c6_witness :
    filterSupported eng5 (.map [("a", .leaf (.int 1))]) = .ok true := by
  have h := (c6_support_check eng5).2 tbl5 rfl (.map [("a", .leaf (.int 1))])
      [[.str "a", .int 1]] rfl
  rw [h]
  rfl

/-- The include directives `_traverse_tree` treats as "yield nothing":
exactly the Python object `False`. -/
def isFalseDir : Option Doc → Bool
  | some (.leaf (.bool false)) => true
  | _ => false

/-- The include directives `_traverse_tree` treats as "descend without
restriction": the Python objects `None` (absent or explicit) and `True`. -/
def isFullDir : Option Doc → Bool
  | Option.none => true
  | some (.leaf .none) => true
  | some (.leaf (.bool true)) => true
  | _ => false

/-- Any include directive other than `None`, a boolean, or a mapping: a
non-boolean scalar or a list. -/
def OtherDirective (inc : Option Doc) : Prop :=
  (∃ n, inc = some (.leaf (.int n))) ∨ (∃ s, inc = some (.leaf (.str s)))
    ∨ (∃ xs, inc = some (.list xs))

/-- An explicitly `False` directive yields nothing for any subtree. -/
theorem traverseTree_false (t : Doc) :
    traverseTree t (some (.leaf (.bool false))) = .ok [] := by
  cases t <;> rfl

/-- With any non-`False` directive, a scalar node terminates a branch. -/
theorem traverseTree_leaf_eq (v : PyVal) (inc : Option Doc) (h : isFalseDir inc = false) :
    traverseTree (.leaf v) inc = .ok [.leaf v] := by
  rcases inc with _ | g
  · rfl
  · rcases g with w | ys | m
    · rcases w with n | s | b | _
      · rfl
      · rfl
      · cases b
        · simp [isFalseDir] at h
        · rfl
      · rfl
    · rfl
    · rfl

/-- With any non-`False` directive, a list node traverses its elements
with the same directive. -/
theorem traverseTree_list_eq (xs : List Doc) (inc : Option Doc) (h : isFalseDir inc = false) :
    traverseTree (.list xs) inc = travList xs inc := by
  rcases inc with _ | g
  · rfl
  · rcases g with w | ys | m
    · rcases w with n | s | b | _
      · rfl
      · rfl
      · cases b
        · simp [isFalseDir] at h
        · rfl
      · rfl
    · rfl
    · rfl

/-- With a `None` or `True` directive, a mapping node descends every key
without restriction. -/
theorem traverseTree_map_full (kvs : List (String × Doc)) (inc : Option Doc)
    (h : isFullDir inc = true) :
    traverseTree (.map kvs) inc = travMapFull kvs := by
  rcases inc with _ | g
  · rfl
  · rcases g with w | ys | m
    · rcases w with n | s | b | _
      · simp [isFullDir] at h
      · simp [isFullDir] at h
      · cases b
        · simp [isFullDir] at h
        · rfl
      · rfl
    · simp [isFullDir] at h
    · simp [isFullDir] at h

/-- With a mapping directive, a mapping node is traversed entry-wise under
the directive's per-key decisions. -/
theorem traverseTree_map_incl (kvs m : List (String × Doc)) :
    traverseTree (.map kvs) (some (.map m)) = travMapIncl kvs m := rfl

/-- With any other directive (a non-boolean scalar or a list), a mapping
node raises `AttributeError` unless it has no keys at all. -/
theorem traverseTree_map_other (kvs : List (String × Doc)) (inc : Option Doc)
    (h : OtherDirective inc) :
    traverseTree (.map kvs) inc = if kvs.isEmpty then .ok [] else .error .attributeError := by
  rcases h with ⟨n, rfl⟩ | ⟨s, rfl⟩ | ⟨xs, rfl⟩ <;> rfl

/-- A `None`/`True` directive is not the `False` directive. -/
theorem isFalseDir_of_isFullDir (inc : Option Doc) (h : isFullDir inc = true) :
    isFalseDir inc = false := by
  rcases inc with _ | g
  · rfl
  · rcases g with w | ys | m
    · rcases w with n | s | b | _
      · simp [isFullDir] at h
      · simp [isFullDir] at h
      · cases b
        · simp [isFullDir] at h
        · rfl
      · rfl
    · simp [isFullDir] at h
    · simp [isFullDir] at h

mutual

/-- A `None` or `True` directive traverses any tree exactly like the
unrestricted traversal. -/
theorem trav_fullDir_eq : ∀ (t : Doc) (inc : Option Doc), isFullDir inc = true →
    traverseTree t inc = traverseTree t Option.none
  | .leaf v, inc, h => by
    rw [traverseTree_leaf_eq v inc (isFalseDir_of_isFullDir inc h),
      traverseTree_leaf_eq v Option.none rfl]
  | .list xs, inc, h => by
    rw [traverseTree_list_eq xs inc (isFalseDir_of_isFullDir inc h),
      traverseTree_list_eq xs Option.none rfl]
    exact travList_fullDir_eq xs inc h
  | .map kvs, inc, h => by
    rw [traverseTree_map_full kvs inc h, traverseTree_map_full kvs Option.none rfl]

/-- Element-wise version of `trav_fullDir_eq` for list nodes. -/
theorem travList_fullDir_eq : ∀ (xs : List Doc) (inc : Option Doc), isFullDir inc = true →
    travList xs inc = travList xs Option.none
  | [], _, _ => rfl
  | x :: xs, inc, h => by
    simp only [travList]
    rw [trav_fullDir_eq x inc h, travList_fullDir_eq xs inc h]

end

/-- C9 (amended).  The flattener yields nothing for a subtree whose
directive is exactly `False`; it descends unconditionally, exactly as an
unrestricted traversal, when the directive is `True` or `None`/absent;
when the directive is a mapping, precisely the keys whose entry in it is
present and truthy are descended into (with the entry as sub-directive) —
keys absent from the directive mapping or mapped to a falsy value
(including an empty nested mapping) contribute nothing; and any other
directive (a non-boolean scalar or a list) raises `AttributeError` at a
non-empty mapping node instead of descending. -/
theorem c9_pruning :
    (∀ t : Doc, traverseTree t (some (.leaf (.bool false))) = .ok [])
  ∧ (∀ (t : Doc) (inc : Option Doc), isFullDir inc = true →
      traverseTree t inc = traverseTree t Option.none)
  ∧ (∀ (k : String) (v : Doc) (rest m : List (String × Doc)),
      (lookupD m k = Option.none ∨ ∃ g, lookupD m k = some g ∧ g.truthy = false) →
      traverseTree (.map ((k, v) :: rest)) (some (.map m))
        = traverseTree (.map rest) (some (.map m)))
  ∧ (∀ (k : String) (v : Doc) (rest m : List (String × Doc)) (g : Doc),
      lookupD m k = some g → g.truthy = true →
      traverseTree (.map ((k, v) :: rest)) (some (.map m))
        = match traverseTree v (some g) with
          | .error e => .error e
          | .ok bs =>
            match traverseTree (.map rest) (some (.map m)) with
            | .error e => .error e
            | .ok rs => .ok (bs.map (Branch.node k) ++ rs))
  ∧ (∀ (kvs : List (String × Doc)) (inc : Option Doc), kvs ≠ [] → OtherDirective inc →
      traverseTree (.map kvs) inc = .error .attributeError) := by
  refine ⟨traverseTree_false, trav_fullDir_eq, ?_, ?_, ?_⟩
  · intro k v rest m hskip
    rw [traverseTree_map_incl, traverseTree_map_incl]
    rcases hskip with hnone | ⟨g, hg, hfalsy⟩
    · simp [travMapIncl, hnone]
    · simp [travMapIncl, hg, hfalsy]
  · intro k v rest m g hg ht
    rw [traverseTree_map_incl, traverseTree_map_incl]
    simp [travMapIncl, hg, ht]
  · intro kvs inc hne hother
    rw [traverseTree_map_other kvs inc hother]
    rcases kvs with _ | ⟨p, rest⟩
    · exact absurd rfl hne
    · rfl

/-- C9, witness: a key marked `True` in a mapping directive is descended
into with `True` as sub-directive. -/
theorem c9_witness :
    traverseTree (.map [("a", .leaf (.int 1))]) (some (.map [("a", .leaf (.bool true))]))
      = match traverseTree (.leaf (.int 1)) (some (.leaf (.bool true))) with
        | .error e => .error e
        | .ok bs =>
          match traverseTree (.map ([] : List (String × Doc)))
              (some (.map [("a", .leaf (.bool true))])) with
          | .error e => .error e
          | .ok rs => .ok (bs.map (Branch.node "a") ++ rs) :=
  c9_pruning.2.2.2.1 "a" (.leaf (.int 1)) [] [("a", .leaf (.bool true))]
    (.leaf (.bool true)) rfl rfl

/-- Construction stores exactly the included-paths table computed from the
include specification, whatever the documents are. -/
theorem buildIndex_included (docs : Option (List Doc)) (inc : Option Doc) (e : Engine)
    (h : buildIndex docs inc = .ok e) : buildIncluded inc = .ok e.included := by
  unfold buildIndex at h
  cases hb : buildIncluded inc with
  | error err => rw [hb] at h; exact absurd h (by simp)
  | ok included =>
    rw [hb] at h
    dsimp only at h
    cases docs with
    | none =>
      obtain rfl : (⟨[], [], included⟩ : Engine) = e := by simpa using h
      rfl
    | some ds =>
      dsimp only at h
      cases hd : buildIndexDocs ds inc [] [] with
      | error err => rw [hd] at h; exact absurd h (by simp)
      | ok p =>
        rw [hd] at h
        obtain ⟨ids, idx⟩ := p
        dsimp only at h
        obtain rfl : (⟨ids, idx, included⟩ : Engine) = e := by simpa using h
        rfl

/-- C5 (amended).  With `include = {"a": True, "b": False}`, for every
scalar value `x`: `find({"b": x})` raises `UnsupportedFilterError`
(`RuntimeError`), `find({"a": x})` passes validation and succeeds, and a
filter on the unmentioned sibling key `"c"` likewise raises
`UnsupportedFilterError`, because the explicit marks exclude the other
keys of that level.  (The unrestricted claim over every value `x` fails:
see the counterexample at `x = {}` and `x = ["x", "y"]`.) -/
theorem c5_include_pruning (docs : Option (List Doc)) (e : Engine)
    (hbuild : buildIndex docs (some incl5) = .ok e) (x : PyVal) :
    find e (some (.map [("b", .leaf x)])) = .error .runtimeError
  ∧ (∃ r, find e (some (.map [("a", .leaf x)])) = .ok r)
  ∧ find e (some (.map [("c", .leaf x)])) = .error .runtimeError := by
  have hincl : e.included = some tbl5 := by
    have h := buildIndex_included docs (some incl5) e hbuild
    have hc : buildIncluded (some incl5) = .ok (some tbl5) := rfl
    rw [hc] at h
    simpa using h.symm
  obtain ⟨ids, idx, incl⟩ := e
  obtain rfl : incl = some tbl5 := hincl
  exact ⟨rfl, ⟨indexGet idx [.str "a", x], rfl⟩, rfl⟩

/-- C5, witness: the engine built from the scenario documents with
`incl5`, at `x = 7`. -/
theorem c5_witness :
    find eng5 (some (.map [("b", .leaf (.int 7))])) = .error .runtimeError
  ∧ (∃ r, find eng5 (some (.map [("a", .leaf (.int 7))])) = .ok r)
  ∧ find eng5 (some (.map [("c", .leaf (.int 7))])) = .error .runtimeError :=
  c5_include_pruning (some docs1) eng5 rfl (.int 7)

/-- Membership in a Python-set model after `add`. -/
theorem mem_setAdd {x y : PyVal} {s : List PyVal} : x ∈ setAdd s y ↔ (x ∈ s ∨ x = y) := by
  by_cases hy : y ∈ s
  · simp only [setAdd, if_pos hy]
    constructor
    · exact Or.inl
    · rintro (h | rfl)
      · exact h
      · exact hy
  · simp only [setAdd, if_neg hy, List.mem_append, List.mem_singleton]

/-- Membership in a set intersection. -/
theorem mem_setInter {x : PyVal} {a b : List PyVal} : x ∈ setInter a b ↔ (x ∈ a ∧ x ∈ b) := by
  simp [setInter]

/-- Membership after the progressive intersection loop of `find`: in the
running set and in every remaining branch's candidate set. -/
theorem mem_interFold {idx : List (List PyVal × List PyVal)} :
    ∀ (ts : List (List PyVal)) (r : List PyVal) (x : PyVal),
    x ∈ interFold idx ts r ↔ (x ∈ r ∧ ∀ t ∈ ts, x ∈ indexGet idx t)
  | [], r, x => by simp [interFold]
  | t :: ts, r, x => by
    rw [show interFold idx (t :: ts) r = interFold idx ts (setInter r (indexGet idx t)) from rfl,
      mem_interFold ts _ x, mem_setInter, List.forall_mem_cons]
    tauto

/-- The added id is a member of its entry after `indexAdd`. -/
theorem mem_indexGet_indexAdd_self (idx : List (List PyVal × List PyVal))
    (h : List PyVal) (i : PyVal) : i ∈ indexGet (indexAdd idx h i) h := by
  induction idx with
  | nil => simp [indexAdd, indexGet]
  | cons p rest ih =>
    obtain ⟨h', s⟩ := p
    by_cases hh : h' = h
    · subst hh
      simp [indexAdd, indexGet, mem_setAdd]
    · simp [indexAdd, indexGet, hh, ih]

/-- Looking up the key just stored. -/
theorem indexGet_cons_self (h s : List PyVal) (rest : List (List PyVal × List PyVal)) :
    indexGet ((h, s) :: rest) h = s := by
  simp [indexGet]

/-- Looking up a different key skips the head entry. -/
theorem indexGet_cons_ne {h' h : List PyVal} (hh : h' ≠ h) (s : List PyVal)
    (rest : List (List PyVal × List PyVal)) :
    indexGet ((h', s) :: rest) h = indexGet rest h := by
  simp [indexGet, hh]

/-- `indexAdd` never removes a member from any entry. -/
theorem mem_indexGet_indexAdd_of_mem {idx : List (List PyVal × List PyVal)}
    {g : List PyVal} {x : PyVal} (hx : x ∈ indexGet idx g) (h : List PyVal) (i : PyVal) :
    x ∈ indexGet (indexAdd idx h i) g := by
  induction idx with
  | nil => simp [indexGet] at hx
  | cons p rest ih =>
    obtain ⟨h', s⟩ := p
    by_cases hh : h' = h
    · subst hh
      rw [show indexAdd ((h', s) :: rest) h' i = (h', setAdd s i) :: rest by simp [indexAdd]]
      by_cases hg : h' = g
      · subst hg
        rw [indexGet_cons_self] at hx ⊢
        exact mem_setAdd.mpr (Or.inl hx)
      · rw [indexGet_cons_ne hg] at hx ⊢
        exact hx
    · rw [show indexAdd ((h', s) :: rest) h i = (h', s) :: indexAdd rest h i by simp [indexAdd, hh]]
      by_cases hg : h' = g
      · subst hg
        rw [indexGet_cons_self] at hx ⊢
        exact hx
      · rw [indexGet_cons_ne hg] at hx ⊢
        exact ih hx

/-- A member of an entry after `indexAdd` was already there or is the
added id. -/
theorem mem_indexGet_indexAdd_cases {idx : List (List PyVal × List PyVal)}
    {g h : List PyVal} {x i : PyVal}
    (hx : x ∈ indexGet (indexAdd idx h i) g) : x ∈ indexGet idx g ∨ x = i := by
  induction idx with
  | nil =>
    rw [show indexAdd [] h i = [(h, [i])] from rfl] at hx
    by_cases hg : h = g
    · subst hg
      rw [indexGet_cons_self] at hx
      exact Or.inr (by simpa using hx)
    · rw [indexGet_cons_ne hg] at hx
      simp [indexGet] at hx
  | cons p rest ih =>
    obtain ⟨h', s⟩ := p
    by_cases hh : h' = h
    · subst hh
      rw [show indexAdd ((h', s) :: rest) h' i = (h', setAdd s i) :: rest by simp [indexAdd]] at hx
      by_cases hg : h' = g
      · subst hg
        rw [indexGet_cons_self] at hx
        rw [indexGet_cons_self]
        rcases mem_setAdd.mp hx with hm | hm
        · exact Or.inl hm
        · exact Or.inr hm
      · rw [indexGet_cons_ne hg] at hx
        rw [indexGet_cons_ne hg]
        exact Or.inl hx
    · rw [show indexAdd ((h', s) :: rest) h i = (h', s) :: indexAdd rest h i by
          simp [indexAdd, hh]] at hx
      by_cases hg : h' = g
      · subst hg
        rw [indexGet_cons_self] at hx
        rw [indexGet_cons_self]
        exact Or.inl hx
      · rw [indexGet_cons_ne hg] at hx
        rw [indexGet_cons_ne hg]
        exact ih hx

/-- The per-document fold over branch tuples never removes a member. -/
theorem mem_indexGet_foldlAdd_of_mem {v : PyVal} :
    ∀ (ts : List (List PyVal)) (idx : List (List PyVal × List PyVal))
      {g : List PyVal} {x : PyVal}, x ∈ indexGet idx g →
      x ∈ indexGet (ts.foldl (fun a f => indexAdd a f v) idx) g
  | [], _, _, _, hx => hx
  | t :: ts, idx, g, x, hx =>
    mem_indexGet_foldlAdd_of_mem ts (indexAdd idx t v)
      (mem_indexGet_indexAdd_of_mem hx t v)

/-- After the per-document fold, the document's id is in the entry of each
of its branch tuples. -/
theorem mem_indexGet_foldlAdd_self {v : PyVal} :
    ∀ (ts : List (List PyVal)) (idx : List (List PyVal × List PyVal))
      {t : List PyVal}, t ∈ ts →
      v ∈ indexGet (ts.foldl (fun a f => indexAdd a f v) idx) t
  | [], _, _, ht => absurd ht (by simp)
  | t' :: ts, idx, t, ht => by
    rcases List.mem_cons.mp ht with rfl | ht'
    · exact mem_indexGet_foldlAdd_of_mem ts _ (mem_indexGet_indexAdd_self idx t v)
    · exact mem_indexGet_foldlAdd_self ts _ ht'

/-- A member of any entry after the per-document fold was already there or
is the document's id. -/
theorem mem_indexGet_foldlAdd_cases {v : PyVal} :
    ∀ (ts : List (List PyVal)) (idx : List (List PyVal × List PyVal))
      {g : List PyVal} {x : PyVal},
      x ∈ indexGet (ts.foldl (fun a f => indexAdd a f v) idx) g →
      x ∈ indexGet idx g ∨ x = v
  | [], _, _, _, hx => Or.inl hx
  | t :: ts, idx, g, x, hx => by
    rcases mem_indexGet_foldlAdd_cases ts (indexAdd idx t v) hx with h | h
    · exact mem_indexGet_indexAdd_cases h
    · exact Or.inr h

/-- Document indexing only grows the id set. -/
theorem buildDocs_ids_mono :
    ∀ (ds : List Doc) (inc : Option Doc) (ids : List PyVal)
      (idx : List (List PyVal × List PyVal)) (ids' : List PyVal)
      (idx' : List (List PyVal × List PyVal)),
    buildIndexDocs ds inc ids idx = .ok (ids', idx') → ∀ x ∈ ids, x ∈ ids'
  | [], inc, ids, idx, ids', idx', h => by
    obtain ⟨rfl, rfl⟩ : ids = ids' ∧ idx = idx' := by
      simpa [buildIndexDocs] using h
    exact fun x hx => hx
  | d :: ds, inc, ids, idx, ids', idx', h => by
    simp only [buildIndexDocs] at h
    split at h
    · exact absurd h (by simp)
    · split at h
      · exact absurd h (by simp)
      · intro x hx
        exact buildDocs_ids_mono ds inc _ _ ids' idx' h x (mem_setAdd.mpr (Or.inl hx))
    · exact absurd h (by simp)

/-- Document indexing only grows the id sets stored in the index. -/
theorem buildDocs_index_mono :
    ∀ (ds : List Doc) (inc : Option Doc) (ids : List PyVal)
      (idx : List (List PyVal × List PyVal)) (ids' : List PyVal)
      (idx' : List (List PyVal × List PyVal)),
    buildIndexDocs ds inc ids idx = .ok (ids', idx') →
    ∀ g x, x ∈ indexGet idx g → x ∈ indexGet idx' g
  | [], inc, ids, idx, ids', idx', h => by
    obtain ⟨rfl, rfl⟩ : ids = ids' ∧ idx = idx' := by
      simpa [buildIndexDocs] using h
    exact fun g x hx => hx
  | d :: ds, inc, ids, idx, ids', idx', h => by
    simp only [buildIndexDocs] at h
    split at h
    · exact absurd h (by simp)
    · split at h
      · exact absurd h (by simp)
      · intro g x hx
        exact buildDocs_index_mono ds inc _ _ ids' idx' h g x
          (mem_indexGet_foldlAdd_of_mem _ _ hx)
    · exact absurd h (by simp)

/-- The construction invariant: if every stored id is in the id set before
a batch of documents is indexed, the same holds afterwards. -/
theorem buildDocs_index_sub :
    ∀ (ds : List Doc) (inc : Option Doc) (ids : List PyVal)
      (idx : List (List PyVal × List PyVal)) (ids' : List PyVal)
      (idx' : List (List PyVal × List PyVal)),
    buildIndexDocs ds inc ids idx = .ok (ids', idx') →
    (∀ g x, x ∈ indexGet idx g → x ∈ ids) →
    ∀ g x, x ∈ indexGet idx' g → x ∈ ids'
  | [], inc, ids, idx, ids', idx', h, hsub => by
    obtain ⟨rfl, rfl⟩ : ids = ids' ∧ idx = idx' := by
      simpa [buildIndexDocs] using h
    exact hsub
  | d :: ds, inc, ids, idx, ids', idx', h, hsub => by
    simp only [buildIndexDocs] at h
    split at h
    · exact absurd h (by simp)
    · split at h
      · exact absurd h (by simp)
      · refine buildDocs_index_sub ds inc _ _ ids' idx' h ?_
        intro g x hx
        rcases mem_indexGet_foldlAdd_cases _ _ hx with hm | rfl
        · exact mem_setAdd.mpr (Or.inl (hsub g x hm))
        · exact mem_setAdd.mpr (Or.inr rfl)
    · exact absurd h (by simp)

/-- For each indexed document, its id and its branch tuples exist, the id
lands in the final id set, and the id is stored under the hash of each of
its branch tuples. -/
theorem buildDocs_mem :
    ∀ (ds : List Doc) (inc : Option Doc) (ids : List PyVal)
      (idx : List (List PyVal × List PyVal)) (ids' : List PyVal)
      (idx' : List (List PyVal × List PyVal)) (d : Doc),
    buildIndexDocs ds inc ids idx = .ok (ids', idx') → d ∈ ds →
    ∃ v ts, d.getItem "_id" = .ok (.leaf v) ∧ branchTuples d inc = .ok ts ∧
      v ∈ ids' ∧ ∀ t ∈ ts, v ∈ indexGet idx' t
  | [], _, _, _, _, _, d, h, hd => absurd hd (by simp)
  | d0 :: ds, inc, ids, idx, ids', idx', d, h, hd => by
    simp only [buildIndexDocs] at h
    rcases List.mem_cons.mp hd with rfl | hd'
    · split at h
      · exact absurd h (by simp)
      · rename_i v heqv
        split at h
        · exact absurd h (by simp)
        · rename_i ts heqts
          refine ⟨v, ts, heqv, heqts, ?_, ?_⟩
          · exact buildDocs_ids_mono ds inc _ _ ids' idx' h v (mem_setAdd.mpr (Or.inr rfl))
          · intro t ht
            exact buildDocs_index_mono ds inc _ _ ids' idx' h t v
              (mem_indexGet_foldlAdd_self ts idx ht)
      · exact absurd h (by simp)
    · split at h
      · exact absurd h (by simp)
      · split at h
        · exact absurd h (by simp)
        · exact buildDocs_mem ds inc _ _ ids' idx' d h hd'
      · exact absurd h (by simp)

/-- Decompose a successful construction over a supplied document list. -/
theorem buildIndex_some_elim (ds : List Doc) (inc : Option Doc) (e : Engine)
    (h : buildIndex (some ds) inc = .ok e) :
    buildIndexDocs ds inc [] [] = .ok (e.ids, e.index) := by
  unfold buildIndex at h
  cases hb : buildIncluded inc with
  | error err => rw [hb] at h; exact absurd h (by simp)
  | ok included =>
    rw [hb] at h
    dsimp only at h
    cases hd : buildIndexDocs ds inc [] [] with
    | error err => rw [hd] at h; exact absurd h (by simp)
    | ok p =>
      rw [hd] at h
      obtain ⟨ids, idx⟩ := p
      dsimp only at h
      obtain rfl : (⟨ids, idx, included⟩ : Engine) = e := by simpa using h
      rfl

/-- Every id yielded by `find` is drawn from a stored candidate set. -/
theorem find_subset_ids (e : Engine)
    (hsub : ∀ g x, x ∈ indexGet e.index g → x ∈ e.ids)
    (f : Option Doc) (r : List PyVal) (hf : find e f = .ok r) :
    ∀ x ∈ r, x ∈ e.ids := by
  unfold find at hf
  split at hf
  · exact absurd hf (by simp)
  · split at hf
    · obtain rfl : e.ids = r := by simpa using hf
      exact fun x hx => hx
    · split at hf
      · exact absurd hf (by simp)
      · split at hf
        · obtain rfl : e.ids = r := by simpa using hf
          exact fun x hx => hx
        · split at hf
          · exact absurd hf (by simp)
          · obtain rfl : ([] : List PyVal) = r := by simpa using hf
            exact fun x hx => absurd hx (by simp)
          · rename_i t ts heq
            obtain rfl : interFold e.index ts (indexGet e.index t) = r := by simpa using hf
            intro x hx
            exact hsub t x ((mem_interFold ts _ x).mp hx).1

/-- After a successful construction, every id stored under any path-hash
in the index is an element of the id set. -/
theorem buildIndex_index_sub (docs : Option (List Doc)) (inc : Option Doc) (e : Engine)
    (hbuild : buildIndex docs inc = .ok e) :
    ∀ g x, x ∈ indexGet e.index g → x ∈ e.ids := by
  cases docs with
  | none =>
    unfold buildIndex at hbuild
    cases hb : buildIncluded inc with
    | error err => rw [hb] at hbuild; exact absurd hbuild (by simp)
    | ok included =>
      rw [hb] at hbuild
      dsimp only at hbuild
      obtain rfl : (⟨[], [], included⟩ : Engine) = e := by simpa using hbuild
      intro g x hx
      simp [indexGet] at hx
  | some ds =>
    have hd := buildIndex_some_elim ds inc e hbuild
    exact buildDocs_index_sub ds inc [] [] e.ids e.index hd
      (fun g x hx => by simp [indexGet] at hx)

/-- C10.  After any successful construction, every id stored under any
path-hash in the index is an element of the id set, and consequently every
id yielded by `find`, for any filter, is in the id set.  The query
operations take the engine as an immutable value and return fresh results,
so `find`, `check_filter` and `__len__` cannot mutate `ids`, `index` or
the included-paths table: purity is built into the embedding. -/
theorem c10_invariants (docs : Option (List Doc)) (inc : Option Doc) (e : Engine)
    (hbuild : buildIndex docs inc = .ok e) :
    (∀ g x, x ∈ indexGet e.index g → x ∈ e.ids)
  ∧ (∀ (f : Option Doc) (r : List PyVal), find e f = .ok r → ∀ x ∈ r, x ∈ e.ids) := by
  have hsub := buildIndex_index_sub docs inc e hbuild
  exact ⟨hsub, fun f r hf => find_subset_ids e hsub f r hf⟩

/-- C10, witness: on the scenario engine, an id yielded by find for
`{"a": 1}` is in the id set. -/
theorem c10_witness : PyVal.int 1 ∈ eng1.ids :=
  (c10_invariants (some docs1) Option.none eng1 rfl).2
    (some (.map [("a", .leaf (.int 1))])) [.int 1, .int 2] rfl (.int 1) (by simp)

/-- The filter reconstructed from one branch: nested single-key mappings
ending in the branch's leaf value. -/
def branchToFilter : Branch → Doc
  | .leaf v => .leaf v
  | .node k r => .map [(k, branchToFilter r)]

/-- The unrestricted traversal of a reconstructed filter yields back
exactly the branch it was built from. -/
theorem traverse_branchToFilter : ∀ b : Branch,
    traverseTree (branchToFilter b) Option.none = .ok [b]
  | .leaf v => rfl
  | .node k r => by
    show travMapFull [(k, branchToFilter r)] = .ok [.node k r]
    simp [travMapFull, traverse_branchToFilter r]

/-- A reconstructed filter is structurally valid. -/
theorem validFilter_branchToFilter : ∀ b : Branch, validFilter (branchToFilter b) = true
  | .leaf v => rfl
  | .node k r => by
    simp [branchToFilter, validFilter, validFilterVals, validFilter_branchToFilter r]

/-- Branches of an unrestricted mapping traversal all start with a key. -/
theorem travMapFull_nodes :
    ∀ (kvs : List (String × Doc)) (bs : List Branch), travMapFull kvs = .ok bs →
      ∀ b ∈ bs, ∃ k r, b = .node k r
  | [], bs, h => by
    obtain rfl : ([] : List Branch) = bs := by simpa [travMapFull] using h
    exact fun b hb => absurd hb (by simp)
  | (k, v) :: rest, bs, h => by
    simp only [travMapFull] at h
    split at h
    · exact absurd h (by simp)
    · rename_i bs0 heq0
      split at h
      · exact absurd h (by simp)
      · rename_i rs heqr
        obtain rfl : bs0.map (Branch.node k) ++ rs = bs := by simpa using h
        intro b hb
        rcases List.mem_append.mp hb with hb | hb
        · rcases List.mem_map.mp hb with ⟨r, _, rfl⟩
          exact ⟨k, r, rfl⟩
        · exact travMapFull_nodes rest rs heqr b hb

/-- Branches of a pruned mapping traversal all start with a key. -/
theorem travMapIncl_nodes :
    ∀ (kvs m : List (String × Doc)) (bs : List Branch), travMapIncl kvs m = .ok bs →
      ∀ b ∈ bs, ∃ k r, b = .node k r
  | [], _, bs, h => by
    obtain rfl : ([] : List Branch) = bs := by simpa [travMapIncl] using h
    exact fun b hb => absurd hb (by simp)
  | (k, v) :: rest, m, bs, h => by
    simp only [travMapIncl] at h
    split at h
    · exact travMapIncl_nodes rest m bs h
    · rename_i g hg
      split at h
      · split at h
        · exact absurd h (by simp)
        · rename_i bs0 heq0
          split at h
          · exact absurd h (by simp)
          · rename_i rs heqr
            obtain rfl : bs0.map (Branch.node k) ++ rs = bs := by simpa using h
            intro b hb
            rcases List.mem_append.mp hb with hb | hb
            · rcases List.mem_map.mp hb with ⟨r, _, rfl⟩
              exact ⟨k, r, rfl⟩
            · exact travMapIncl_nodes rest m rs heqr b hb
      · exact travMapIncl_nodes rest m bs h

/-- Branches of any mapping traversal all start with a key, whatever the
include directive. -/
theorem traverseTree_map_nodes (kvs : List (String × Doc)) (inc : Option Doc)
    (bs : List Branch) (h : traverseTree (.map kvs) inc = .ok bs) :
    ∀ b ∈ bs, ∃ k r, b = .node k r := by
  rcases inc with _ | g
  · exact travMapFull_nodes kvs bs h
  · rcases g with w | ys | m
    · rcases w with n | s | bb | _
      · rw [traverseTree_map_other kvs _ (Or.inl ⟨n, rfl⟩)] at h
        split at h
        · obtain rfl : ([] : List Branch) = bs := by simpa using h
          exact fun b hb => absurd hb (by simp)
        · exact absurd h (by simp)
      · rw [traverseTree_map_other kvs _ (Or.inr (Or.inl ⟨s, rfl⟩))] at h
        split at h
        · obtain rfl : ([] : List Branch) = bs := by simpa using h
          exact fun b hb => absurd hb (by simp)
        · exact absurd h (by simp)
      · cases bb
        · rw [traverseTree_false] at h
          obtain rfl : ([] : List Branch) = bs := by simpa using h
          exact fun b hb => absurd hb (by simp)
        · exact travMapFull_nodes kvs bs h
      · exact travMapFull_nodes kvs bs h
    · rw [traverseTree_map_other kvs _ (Or.inr (Or.inr ⟨ys, rfl⟩))] at h
      split at h
      · obtain rfl : ([] : List Branch) = bs := by simpa using h
        exact fun b hb => absurd hb (by simp)
      · exact absurd h (by simp)
    · exact travMapIncl_nodes kvs m bs h

/-- Flattening succeeds on a list of key-started branches. -/
theorem flattenAll_ok_of_nodes :
    ∀ (bs : List Branch), (∀ b ∈ bs, ∃ k r, b = .node k r) →
      ∃ ts, flattenAll bs = .ok ts
  | [], _ => ⟨[], rfl⟩
  | b :: bs, h => by
    obtain ⟨k, r, rfl⟩ := h b (by simp)
    obtain ⟨ts, hts⟩ := flattenAll_ok_of_nodes bs (fun b hb => h b (by simp [hb]))
    exact ⟨(.str k :: flattenRest r) :: ts, by simp [flattenAll, flattenBranch, hts]⟩

/-- Each flattened branch tuple appears in the flattening of the list. -/
theorem flattenAll_mem :
    ∀ (bs : List Branch) (ts : List (List PyVal)), flattenAll bs = .ok ts →
      ∀ b ∈ bs, ∀ fl, flattenBranch b = .ok fl → fl ∈ ts
  | [], _, _ => by
    intro b hb
    exact absurd hb (by simp)
  | b0 :: bs, ts, h => by
    simp only [flattenAll] at h
    split at h
    · exact absurd h (by simp)
    · rename_i fl0 heq0
      split at h
      · exact absurd h (by simp)
      · rename_i ts' heqts
        obtain rfl : fl0 :: ts' = ts := by simpa using h
        intro b hb fl hfl
        rcases List.mem_cons.mp hb with rfl | hb'
        · rw [heq0] at hfl
          obtain rfl : fl0 = fl := by simpa using hfl
          simp
        · exact List.mem_cons_of_mem _ (flattenAll_mem bs ts' heqts b hb' fl hfl)

/-- Evaluating `find` on a single-branch reconstructed filter on an engine
with no include restriction: the result is that branch's candidate set. -/
theorem find_single_branch (ids : List PyVal) (idx : List (List PyVal × List PyVal))
    (k : String) (r0 : Branch) :
    find ⟨ids, idx, Option.none⟩ (some (branchToFilter (.node k r0)))
      = .ok (indexGet idx (.str k :: flattenRest r0)) := by
  have hcheck : checkFilter ⟨ids, idx, Option.none⟩ (some (branchToFilter (.node k r0)))
      = .ok Option.none := by
    unfold checkFilter
    dsimp only
    rw [validFilter_branchToFilter]
    simp [filterSupported]
  have hbt : branchTuples (branchToFilter (.node k r0)) Option.none
      = .ok [PyVal.str k :: flattenRest r0] := by
    unfold branchTuples
    rw [traverse_branchToFilter]
    rfl
  unfold find
  rw [hcheck]
  dsimp only
  rw [show Doc.pyLen (branchToFilter (.node k r0)) = .ok 1 from rfl]
  dsimp only
  rw [hbt]
  rfl

/-- C2.  For every collection indexed with no include specification, every
indexed document, and every branch produced by flattening it, `find` on
the filter reconstructed from that branch yields a set containing the
document's id. -/
theorem c2_roundtrip (docs : List Doc) (e : Engine) (d : Doc) (bs : List Branch)
    (b : Branch) (i : PyVal)
    (hbuild : buildIndex (some docs) Option.none = .ok e)
    (hd : d ∈ docs)
    (hbs : traverseTree d Option.none = .ok bs)
    (hb : b ∈ bs)
    (hid : d.getItem "_id" = .ok (.leaf i)) :
    ∃ r, find e (some (branchToFilter b)) = .ok r ∧ i ∈ r := by
  obtain ⟨ids, idx, incl⟩ := e
  have hdocs := buildIndex_some_elim docs Option.none _ hbuild
  have hincl : incl = Option.none := by
    have h := buildIndex_included (some docs) Option.none _ hbuild
    have h2 : (Except.ok Option.none :
        Except PyErr (Option (List (List PyVal × PyVal)))) = .ok incl := h
    simpa using h2.symm
  subst hincl
  have hdmap : ∃ kvs, d = .map kvs := by
    cases d with
    | map kvs => exact ⟨kvs, rfl⟩
    | leaf v => exact absurd hid (by simp [Doc.getItem])
    | list xs => exact absurd hid (by simp [Doc.getItem])
  obtain ⟨kvs, rfl⟩ := hdmap
  obtain ⟨k, r0, rfl⟩ := traverseTree_map_nodes kvs Option.none bs hbs b hb
  obtain ⟨v, ts, hv, hts, hvin, hall⟩ :=
    buildDocs_mem docs Option.none [] [] ids idx (.map kvs) hdocs hd
  rw [hid] at hv
  obtain rfl : i = v := by simpa using hv
  have hfa : flattenAll bs = .ok ts := by
    unfold branchTuples at hts
    rw [hbs] at hts
    exact hts
  have hflmem : (PyVal.str k :: flattenRest r0) ∈ ts :=
    flattenAll_mem bs ts hfa _ hb _ rfl
  exact ⟨indexGet idx (.str k :: flattenRest r0), find_single_branch ids idx k r0,
    hall _ hflmem⟩

/-- C2, witness: the first scenario document, its `("a", 1)` branch. -/
theorem c2_witness :
    ∃ r, find eng1 (some (branchToFilter (.node "a" (.leaf (.int 1))))) = .ok r
      ∧ PyVal.int 1 ∈ r :=
  c2_roundtrip docs1 eng1
    (.map [("_id", .leaf (.int 1)), ("a", .leaf (.int 1)), ("b", .map [("c", .leaf (.int 2))])])
    [.node "_id" (.leaf (.int 1)), .node "a" (.leaf (.int 1)),
      .node "b" (.node "c" (.leaf (.int 2)))]
    (.node "a" (.leaf (.int 1))) (.int 1) rfl (List.Mem.head _) rfl
    (List.Mem.tail _ (List.Mem.head _)) rfl

/-- A filter that passed `check_filter` is valid and supported (and the
returned value is the implicit `None`). -/
theorem checkFilter_some_elim (e : Engine) (flt : Doc) (cv : Option Bool)
    (h : checkFilter e (some flt) = .ok cv) :
    validFilter flt = true ∧ filterSupported e flt = .ok true ∧ cv = Option.none := by
  unfold checkFilter at h
  dsimp only at h
  split at h
  · exact absurd h (by simp)
  · rename_i hvalid
    split at h
    · exact absurd h (by simp)
    · rename_i hsup
      refine ⟨?_, hsup, by simpa using h.symm⟩
      cases hv : validFilter flt
      · exact absurd hv hvalid
      · rfl
    · exact absurd h (by simp)

/-- A valid, supported filter passes `check_filter` with the implicit
`None` return. -/
theorem checkFilter_some_intro (e : Engine) (flt : Doc)
    (hv : validFilter flt = true) (hs : filterSupported e flt = .ok true) :
    checkFilter e (some flt) = .ok Option.none := by
  unfold checkFilter
  dsimp only
  rw [hv]
  simp [hs]

/-- Traversing the concatenation of two mapping bodies concatenates their
branches. -/
theorem travMapFull_append :
    ∀ (kvs1 kvs2 : List (String × Doc)) (bs1 bs2 : List Branch),
    travMapFull kvs1 = .ok bs1 → travMapFull kvs2 = .ok bs2 →
    travMapFull (kvs1 ++ kvs2) = .ok (bs1 ++ bs2)
  | [], kvs2, bs1, bs2, h1, h2 => by
    obtain rfl : ([] : List Branch) = bs1 := by simpa [travMapFull] using h1
    simpa using h2
  | (k, v) :: rest, kvs2, bs1, bs2, h1, h2 => by
    simp only [travMapFull] at h1
    split at h1
    · exact absurd h1 (by simp)
    · rename_i bs0 heq0
      split at h1
      · exact absurd h1 (by simp)
      · rename_i rs heqr
        obtain rfl : bs0.map (Branch.node k) ++ rs = bs1 := by simpa using h1
        have hrec := travMapFull_append rest kvs2 rs bs2 heqr h2
        show travMapFull ((k, v) :: (rest ++ kvs2)) = _
        simp only [travMapFull]
        rw [heq0, hrec]
        simp

/-- Flattening a concatenation of branch lists concatenates the tuples. -/
theorem flattenAll_append :
    ∀ (bs1 bs2 : List Branch) (ts1 ts2 : List (List PyVal)),
    flattenAll bs1 = .ok ts1 → flattenAll bs2 = .ok ts2 →
    flattenAll (bs1 ++ bs2) = .ok (ts1 ++ ts2)
  | [], bs2, ts1, ts2, h1, h2 => by
    obtain rfl : ([] : List (List PyVal)) = ts1 := by simpa [flattenAll] using h1
    simpa using h2
  | b :: bs, bs2, ts1, ts2, h1, h2 => by
    simp only [flattenAll] at h1
    split at h1
    · exact absurd h1 (by simp)
    · rename_i fl heqf
      split at h1
      · exact absurd h1 (by simp)
      · rename_i ts' heqts
        obtain rfl : fl :: ts' = ts1 := by simpa using h1
        have hrec := flattenAll_append bs bs2 ts' ts2 heqts h2
        show flattenAll (b :: (bs ++ bs2)) = _
        simp only [flattenAll]
        rw [heqf, hrec]
        rfl

/-- Decompose the traversal-then-flattening of a tree. -/
theorem branchTuples_elim (t : Doc) (inc : Option Doc) (ts : List (List PyVal))
    (h : branchTuples t inc = .ok ts) :
    ∃ bs, traverseTree t inc = .ok bs ∧ flattenAll bs = .ok ts := by
  unfold branchTuples at h
  split at h
  · exact absurd h (by simp)
  · rename_i bs heq
    exact ⟨bs, heq, h⟩

/-- The branch tuples of a top-level merge of two filters are the
concatenation of the two filters' branch tuples. -/
theorem branchTuples_map_append (kvs1 kvs2 : List (String × Doc))
    (ts1 ts2 : List (List PyVal))
    (h1 : branchTuples (.map kvs1) Option.none = .ok ts1)
    (h2 : branchTuples (.map kvs2) Option.none = .ok ts2) :
    branchTuples (.map (kvs1 ++ kvs2)) Option.none = .ok (ts1 ++ ts2) := by
  obtain ⟨bs1, hb1, hf1⟩ := branchTuples_elim _ _ _ h1
  obtain ⟨bs2, hb2, hf2⟩ := branchTuples_elim _ _ _ h2
  have hb : travMapFull (kvs1 ++ kvs2) = .ok (bs1 ++ bs2) :=
    travMapFull_append kvs1 kvs2 bs1 bs2 hb1 hb2
  unfold branchTuples
  rw [show traverseTree (.map (kvs1 ++ kvs2)) Option.none
      = travMapFull (kvs1 ++ kvs2) from rfl, hb]
  exact flattenAll_append bs1 bs2 ts1 ts2 hf1 hf2

/-- Structural validity distributes over a top-level merge. -/
theorem validFilterVals_append :
    ∀ (kvs1 kvs2 : List (String × Doc)),
    validFilterVals (kvs1 ++ kvs2) = (validFilterVals kvs1 && validFilterVals kvs2)
  | [], kvs2 => by simp [validFilterVals]
  | (k, v) :: rest, kvs2 => by
    show (validFilter v && validFilterVals (rest ++ kvs2))
        = ((validFilter v && validFilterVals rest) && validFilterVals kvs2)
    rw [validFilterVals_append rest kvs2, Bool.and_assoc]

/-- With an include table present, a supported filter's branch tuples all
pass the prefix check. -/
theorem filterSupported_some_elim (e : Engine) (tbl : List (List PyVal × PyVal))
    (flt : Doc) (hincl : e.included = some tbl)
    (h : filterSupported e flt = .ok true) :
    ∃ ts, branchTuples flt Option.none = .ok ts
      ∧ ts.all (fun fl => branchCheckCode tbl fl) = true := by
  unfold filterSupported at h
  rw [hincl] at h
  dsimp only at h
  split at h
  · exact absurd h (by simp)
  · rename_i ts heq
    exact ⟨ts, heq, by simpa using h⟩

/-- A top-level merge of two supported filters is supported. -/
theorem filterSupported_merge (e : Engine) (kvs1 kvs2 : List (String × Doc))
    (h1 : filterSupported e (.map kvs1) = .ok true)
    (h2 : filterSupported e (.map kvs2) = .ok true) :
    filterSupported e (.map (kvs1 ++ kvs2)) = .ok true := by
  cases hincl : e.included with
  | none => unfold filterSupported; rw [hincl]
  | some tbl =>
    obtain ⟨ts1, hb1, ha1⟩ := filterSupported_some_elim e tbl _ hincl h1
    obtain ⟨ts2, hb2, ha2⟩ := filterSupported_some_elim e tbl _ hincl h2
    unfold filterSupported
    rw [hincl]
    dsimp only
    rw [branchTuples_map_append kvs1 kvs2 ts1 ts2 hb1 hb2]
    simp only [List.all_append, ha1, ha2]
    rfl

/-- `find` on an empty mapping filter yields the whole id set, on any
engine. -/
theorem find_map_nil (e : Engine) : find e (some (.map [])) = .ok e.ids := by
  obtain ⟨ids, idx, incl⟩ := e
  cases incl with
  | none => rfl
  | some tbl => rfl

/-- A successful `find` on a filter implies the filter passed
`check_filter`. -/
theorem find_some_check (e : Engine) (flt : Doc) (r : List PyVal)
    (h : find e (some flt) = .ok r) :
    checkFilter e (some flt) = .ok Option.none := by
  unfold find at h
  split at h
  · exact absurd h (by simp)
  · rename_i cv hcv
    obtain ⟨_, _, rfl⟩ := checkFilter_some_elim e flt cv hcv
    exact hcv

/-- Evaluate `find` on a checked, non-empty mapping filter with at least
one branch tuple. -/
theorem find_map_pos (e : Engine) (kvs : List (String × Doc))
    (t : List PyVal) (ts : List (List PyVal))
    (hcheck : checkFilter e (some (.map kvs)) = .ok Option.none)
    (hne : kvs ≠ [])
    (hbt : branchTuples (.map kvs) Option.none = .ok (t :: ts)) :
    find e (some (.map kvs)) = .ok (interFold e.index ts (indexGet e.index t)) := by
  unfold find
  rw [hcheck]
  dsimp only
  rw [show Doc.pyLen (.map kvs) = .ok kvs.length from rfl]
  dsimp only
  rw [if_neg (fun hzero => hne (List.length_eq_zero.mp hzero))]
  rw [hbt]

/-- Characterize a successful `find` on a non-empty mapping filter. -/
theorem find_map_pos_elim (e : Engine) (kvs : List (String × Doc)) (r : List PyVal)
    (hne : kvs ≠ [])
    (h : find e (some (.map kvs)) = .ok r) :
    ∃ ts, branchTuples (.map kvs) Option.none = .ok ts
      ∧ ((ts = [] ∧ r = [])
         ∨ (∃ t ts', ts = t :: ts'
            ∧ r = interFold e.index ts' (indexGet e.index t))) := by
  unfold find at h
  split at h
  · exact absurd h (by simp)
  · dsimp only at h
    rw [show Doc.pyLen (.map kvs) = .ok kvs.length from rfl] at h
    dsimp only at h
    rw [if_neg (fun hzero => hne (List.length_eq_zero.mp hzero))] at h
    split at h
    · exact absurd h (by simp)
    · rename_i heq
      exact ⟨[], heq, Or.inl ⟨rfl, by simpa using h.symm⟩⟩
    · rename_i t ts' heq
      exact ⟨t :: ts', heq, Or.inr ⟨t, ts', rfl, by simpa using h.symm⟩⟩

/-- C3 (amended).  For filters with disjoint top-level keys, `find` on the
top-level merge yields the intersection of the two `find` results,
provided each filter is either empty or produces at least one branch.
(Unrestricted, the claim fails for a non-empty filter that flattens to no
branches, such as `{"a": {}}`: see the counterexample.) -/
theorem c3_intersection (docs : Option (List Doc)) (inc : Option Doc) (e : Engine)
    (kvs1 kvs2 : List (String × Doc)) (r1 r2 : List PyVal)
    (hbuild : buildIndex docs inc = .ok e)
    (hdisj : ∀ k, k ∈ kvs1.map Prod.fst → k ∉ kvs2.map Prod.fst)
    (h1 : find e (some (.map kvs1)) = .ok r1)
    (h2 : find e (some (.map kvs2)) = .ok r2)
    (hne1 : kvs1 = [] ∨ branchTuples (.map kvs1) Option.none ≠ .ok [])
    (hne2 : kvs2 = [] ∨ branchTuples (.map kvs2) Option.none ≠ .ok []) :
    ∃ r, find e (some (.map (kvs1 ++ kvs2))) = .ok r
      ∧ ∀ x, x ∈ r ↔ (x ∈ r1 ∧ x ∈ r2) := by
  have hidx := buildIndex_index_sub docs inc e hbuild
  have hsub1 : ∀ x ∈ r1, x ∈ e.ids := find_subset_ids e hidx _ r1 h1
  have hsub2 : ∀ x ∈ r2, x ∈ e.ids := find_subset_ids e hidx _ r2 h2
  have hc1 := find_some_check e _ r1 h1
  have hc2 := find_some_check e _ r2 h2
  obtain ⟨hv1, hs1, -⟩ := checkFilter_some_elim e _ _ hc1
  obtain ⟨hv2, hs2, -⟩ := checkFilter_some_elim e _ _ hc2
  by_cases hne1' : kvs1 = []
  · subst hne1'
    have hr1 : r1 = e.ids := by
      rw [find_map_nil e] at h1
      simpa using h1.symm
    by_cases hne2' : kvs2 = []
    · subst hne2'
      have hr2 : r2 = e.ids := by
        rw [find_map_nil e] at h2
        simpa using h2.symm
      refine ⟨e.ids, find_map_nil e, ?_⟩
      intro x
      rw [hr1, hr2]
      tauto
    · refine ⟨r2, h2, ?_⟩
      intro x
      rw [hr1]
      constructor
      · intro hx
        exact ⟨hsub2 x hx, hx⟩
      · exact fun hx => hx.2
  · by_cases hne2' : kvs2 = []
    · subst hne2'
      have hr2 : r2 = e.ids := by
        rw [find_map_nil e] at h2
        simpa using h2.symm
      refine ⟨r1, ?_, ?_⟩
      · rw [List.append_nil]
        exact h1
      · intro x
        rw [hr2]
        constructor
        · intro hx
          exact ⟨hx, hsub1 x hx⟩
        · exact fun hx => hx.1
    · obtain ⟨ts1, hbt1, hch1⟩ := find_map_pos_elim e kvs1 r1 hne1' h1
      obtain ⟨ts2, hbt2, hch2⟩ := find_map_pos_elim e kvs2 r2 hne2' h2
      have hne1b : branchTuples (.map kvs1) Option.none ≠ .ok [] := by
        rcases hne1 with h | h
        · exact absurd h hne1'
        · exact h
      have hne2b : branchTuples (.map kvs2) Option.none ≠ .ok [] := by
        rcases hne2 with h | h
        · exact absurd h hne2'
        · exact h
      rcases hch1 with ⟨rfl, -⟩ | ⟨t1, ts1', rfl, hr1⟩
      · exact absurd hbt1 hne1b
      rcases hch2 with ⟨rfl, -⟩ | ⟨t2, ts2', rfl, hr2⟩
      · exact absurd hbt2 hne2b
      have hbt12 : branchTuples (.map (kvs1 ++ kvs2)) Option.none
          = .ok (t1 :: (ts1' ++ t2 :: ts2')) :=
        branchTuples_map_append kvs1 kvs2 _ _ hbt1 hbt2
      have hsup12 := filterSupported_merge e kvs1 kvs2 hs1 hs2
      have hvalid12 : validFilter (.map (kvs1 ++ kvs2)) = true := by
        show validFilterVals (kvs1 ++ kvs2) = true
        rw [validFilterVals_append]
        have hv1' : validFilterVals kvs1 = true := hv1
        have hv2' : validFilterVals kvs2 = true := hv2
        rw [hv1', hv2']
        rfl
      have hcheck12 := checkFilter_some_intro e (.map (kvs1 ++ kvs2)) hvalid12 hsup12
      have hne12 : kvs1 ++ kvs2 ≠ [] := by
        intro hc
        exact hne1' (List.append_eq_nil.mp hc).1
      have hfind12 := find_map_pos e (kvs1 ++ kvs2) t1 (ts1' ++ t2 :: ts2')
        hcheck12 hne12 hbt12
      refine ⟨_, hfind12, ?_⟩
      intro x
      subst hr1
      subst hr2
      rw [mem_interFold, mem_interFold, mem_interFold]
      constructor
      · rintro ⟨hx1, hall⟩
        have h1s : ∀ t ∈ ts1', x ∈ indexGet e.index t :=
          fun t ht => hall t (by simp [ht])
        have h2s : x ∈ indexGet e.index t2 := hall t2 (by simp)
        have h3s : ∀ t ∈ ts2', x ∈ indexGet e.index t :=
          fun t ht => hall t (by simp [ht])
        exact ⟨⟨hx1, h1s⟩, h2s, h3s⟩
      · rintro ⟨⟨hx1, hall1⟩, hx2, hall2⟩
        refine ⟨hx1, fun t ht => ?_⟩
        rcases List.mem_append.mp ht with ht | ht
        · exact hall1 t ht
        · rcases List.mem_cons.mp ht with rfl | ht
          · exact hx2
          · exact hall2 t ht

/-- C3, witness: `{"a": 1}` and `{"b": {"c": 2}}` on the scenario
engine. -/
theorem c3_witness :
    ∃ r, find eng1 (some (.map ([("a", Doc.leaf (.int 1))]
        ++ [("b", Doc.map [("c", Doc.leaf (.int 2))])]))) = .ok r
      ∧ ∀ x, x ∈ r ↔ (x ∈ [PyVal.int 1, PyVal.int 2] ∧ x ∈ [PyVal.int 1]) :=
  c3_intersection (some docs1) Option.none eng1
    [("a", .leaf (.int 1))] [("b", .map [("c", .leaf (.int 2))])]
    [.int 1, .int 2] [.int 1] rfl
    (by intro k hk; simp at hk; simp [hk]) rfl rfl
    (Or.inr (fun hc => by
      rw [show branchTuples (.map [("a", Doc.leaf (.int 1))]) Option.none
          = .ok [[PyVal.str "a", PyVal.int 1]] from rfl] at hc
      simp at hc))
    (Or.inr (fun hc => by
      rw [show branchTuples (.map [("b", Doc.map [("c", Doc.leaf (.int 2))])]) Option.none
          = .ok [[PyVal.str "b", PyVal.str "c", PyVal.int 2]] from rfl] at hc
      simp at hc))

mutual

/-- A well-formed include specification value as the data model describes
it: a tree of mappings whose leaves are booleans (or `None`). -/
def includeWF : Doc → Bool
  | .leaf (.bool _) => true
  | .leaf .none => true
  | .leaf _ => false
  | .list _ => false
  | .map kvs => includeWFVals kvs

/-- `includeWF` over a mapping's entries. -/
def includeWFVals : List (String × Doc) → Bool
  | [] => true
  | (_, v) :: rest => includeWF v && includeWFVals rest

end

/-- A well-formed include directive argument: either absent or a
well-formed mapping tree. -/
def IncArgOk (inc : Option Doc) : Prop :=
  inc = Option.none ∨ ∃ kvs, inc = some (.map kvs) ∧ includeWF (.map kvs) = true

/-- A well-formed include argument is a well-formed directive. -/
theorem IncArgOk.incOk {inc : Option Doc} (h : IncArgOk inc) :
    inc = Option.none ∨ ∃ g, inc = some g ∧ includeWF g = true := by
  rcases h with rfl | ⟨kvs, rfl, hw⟩
  · exact Or.inl rfl
  · exact Or.inr ⟨_, rfl, hw⟩

/-- Looking a key up in a well-formed include mapping yields a well-formed
sub-directive. -/
theorem lookupD_wf : ∀ (m : List (String × Doc)) (k : String) (g : Doc),
    includeWFVals m = true → lookupD m k = some g → includeWF g = true
  | [], k, g, _, hl => by simp [lookupD] at hl
  | (k', v) :: rest, k, g, hm, hl => by
    simp only [includeWFVals, Bool.and_eq_true] at hm
    simp only [lookupD] at hl
    split at hl
    · obtain rfl : v = g := by simpa using hl
      exact hm.1
    · exact lookupD_wf rest k g hm.2 hl

/-- `isFalseDir` characterized. -/
theorem isFalseDir_true_iff (inc : Option Doc) :
    isFalseDir inc = true ↔ inc = some (.leaf (.bool false)) := by
  rcases inc with _ | g
  · simp [isFalseDir]
  · rcases g with w | ys | m
    · rcases w with n | s | b | _
      · simp [isFalseDir]
      · simp [isFalseDir]
      · cases b
        · simp [isFalseDir]
        · simp [isFalseDir]
      · simp [isFalseDir]
    · simp [isFalseDir]
    · simp [isFalseDir]

/-- Traversal of a scalar never raises, whatever the directive. -/
theorem travLeafOk (v : PyVal) (inc : Option Doc) :
    ∃ bs, traverseTree (.leaf v) inc = .ok bs := by
  cases hf : isFalseDir inc with
  | true =>
    refine ⟨[], ?_⟩
    rw [(isFalseDir_true_iff inc).mp hf]
    exact traverseTree_false _
  | false => exact ⟨[.leaf v], traverseTree_leaf_eq v inc hf⟩

mutual

/-- With a well-formed directive, `_traverse_tree` never raises. -/
theorem travNoErr : ∀ (t : Doc) (inc : Option Doc),
    (inc = Option.none ∨ ∃ g, inc = some g ∧ includeWF g = true) →
    ∃ bs, traverseTree t inc = .ok bs
  | .leaf v, inc, _ => travLeafOk v inc
  | .list xs, inc, h => by
    rcases h with rfl | ⟨g, rfl, hg⟩
    · obtain ⟨bs, hbs⟩ := travListNoErr xs Option.none (Or.inl rfl)
      exact ⟨bs, by rw [traverseTree_list_eq xs Option.none rfl]; exact hbs⟩
    · cases hf : isFalseDir (some g) with
      | true =>
        refine ⟨[], ?_⟩
        rw [(isFalseDir_true_iff _).mp hf]
        exact traverseTree_false _
      | false =>
        obtain ⟨bs, hbs⟩ := travListNoErr xs (some g) (Or.inr ⟨g, rfl, hg⟩)
        exact ⟨bs, by rw [traverseTree_list_eq xs _ hf]; exact hbs⟩
  | .map kvs, inc, h => by
    rcases h with rfl | ⟨g, rfl, hg⟩
    · exact travMapFullNoErr kvs
    · rcases g with w | ys | m
      · rcases w with n | s | b | _
        · simp [includeWF] at hg
        · simp [includeWF] at hg
        · cases b
          · exact ⟨[], traverseTree_false _⟩
          · exact travMapFullNoErr kvs
        · exact travMapFullNoErr kvs
      · simp [includeWF] at hg
      · exact travMapInclNoErr kvs m (by simpa [includeWF] using hg)

/-- List version of `travNoErr`. -/
theorem travListNoErr : ∀ (xs : List Doc) (inc : Option Doc),
    (inc = Option.none ∨ ∃ g, inc = some g ∧ includeWF g = true) →
    ∃ bs, travList xs inc = .ok bs
  | [], _, _ => ⟨[], rfl⟩
  | x :: xs, inc, h => by
    obtain ⟨bs, hbs⟩ := travNoErr x inc h
    obtain ⟨rs, hrs⟩ := travListNoErr xs inc h
    exact ⟨bs ++ rs, by simp [travList, hbs, hrs]⟩

/-- Unrestricted mapping traversal never raises. -/
theorem travMapFullNoErr : ∀ kvs : List (String × Doc),
    ∃ bs, travMapFull kvs = .ok bs
  | [] => ⟨[], rfl⟩
  | (k, v) :: rest => by
    obtain ⟨bs, hbs⟩ := travNoErr v Option.none (Or.inl rfl)
    obtain ⟨rs, hrs⟩ := travMapFullNoErr rest
    exact ⟨bs.map (Branch.node k) ++ rs, by simp [travMapFull, hbs, hrs]⟩

/-- Pruned mapping traversal under a well-formed include mapping never
raises. -/
theorem travMapInclNoErr : ∀ (kvs m : List (String × Doc)),
    includeWFVals m = true → ∃ bs, travMapIncl kvs m = .ok bs
  | [], _, _ => ⟨[], rfl⟩
  | (k, v) :: rest, m, hm => by
    obtain ⟨rs, hrs⟩ := travMapInclNoErr rest m hm
    cases hg : lookupD m k with
    | none => exact ⟨rs, by simp [travMapIncl, hg, hrs]⟩
    | some g =>
      have hwf : includeWF g = true := lookupD_wf m k g hm hg
      cases ht : g.truthy with
      | false => exact ⟨rs, by simp [travMapIncl, hg, ht, hrs]⟩
      | true =>
        obtain ⟨bs, hbs⟩ := travNoErr v (some g) (Or.inr ⟨g, rfl, hwf⟩)
        exact ⟨bs.map (Branch.node k) ++ rs, by simp [travMapIncl, hg, ht, hbs, hrs]⟩

end

/-- Flattened tuples of key-started branches are non-empty. -/
theorem flattenAll_nodes_ne_nil :
    ∀ (bs : List Branch) (ts : List (List PyVal)), flattenAll bs = .ok ts →
      (∀ b ∈ bs, ∃ k r, b = .node k r) → ∀ fl ∈ ts, fl ≠ []
  | [], ts, h, _ => by
    obtain rfl : ([] : List (List PyVal)) = ts := by simpa [flattenAll] using h
    intro fl hfl
    exact absurd hfl (by simp)
  | b :: bs, ts, h, hn => by
    simp only [flattenAll] at h
    split at h
    · exact absurd h (by simp)
    · rename_i fl0 heq0
      split at h
      · exact absurd h (by simp)
      · rename_i ts' heqts
        obtain rfl : fl0 :: ts' = ts := by simpa using h
        intro fl hfl
        rcases List.mem_cons.mp hfl with rfl | hfl'
        · obtain ⟨k, r, rfl⟩ := hn b (by simp)
          obtain rfl : (PyVal.str k :: flattenRest r) = fl := by
            simpa [flattenBranch] using heq0
          simp
        · exact flattenAll_nodes_ne_nil bs ts' heqts
            (fun b' hb' => hn b' (by simp [hb'])) fl hfl'

/-- With a well-formed directive, the branch tuples of a mapping exist. -/
theorem branchTuples_map_ok (kvs : List (String × Doc)) (inc : Option Doc)
    (hinc : inc = Option.none ∨ ∃ g, inc = some g ∧ includeWF g = true) :
    ∃ ts, branchTuples (.map kvs) inc = .ok ts := by
  obtain ⟨bs, hbs⟩ := travNoErr (.map kvs) inc hinc
  obtain ⟨ts, hts⟩ := flattenAll_ok_of_nodes bs (traverseTree_map_nodes kvs inc bs hbs)
  refine ⟨ts, ?_⟩
  unfold branchTuples
  rw [hbs]
  exact hts

/-- Recording the included-paths entries succeeds when every flattened
spec branch is non-empty. -/
theorem includedFold_ok :
    ∀ (fs : List (List PyVal)) (tbl : List (List PyVal × PyVal)),
      (∀ f ∈ fs, f ≠ []) → ∃ tbl', includedFold fs tbl = .ok tbl'
  | [], tbl, _ => ⟨tbl, rfl⟩
  | f :: fs, tbl, h => by
    obtain ⟨v, hv⟩ : ∃ v, f.getLast? = some v := by
      rcases f with _ | ⟨a, f'⟩
      · exact absurd rfl (h [] (by simp))
      · exact ⟨(a :: f').getLast (by simp), List.getLast?_eq_getLast _ (by simp)⟩
    obtain ⟨tbl', htbl⟩ := includedFold_ok fs (tblSet tbl f.dropLast v)
      (fun f' hf' => h f' (by simp [hf']))
    exact ⟨tbl', by simp [includedFold, hv, htbl]⟩

/-- A well-formed include argument yields an included-paths table. -/
theorem buildIncluded_ok (inc : Option Doc) (h : IncArgOk inc) :
    ∃ tbl, buildIncluded inc = .ok tbl := by
  rcases h with rfl | ⟨kvs, rfl, hw⟩
  · exact ⟨Option.none, rfl⟩
  · obtain ⟨bs, hbs⟩ := travNoErr (.map kvs) Option.none (Or.inl rfl)
    have hnodes := traverseTree_map_nodes kvs Option.none bs hbs
    obtain ⟨ts, hts⟩ := flattenAll_ok_of_nodes bs hnodes
    have hne := flattenAll_nodes_ne_nil bs ts hts hnodes
    obtain ⟨tbl, htbl⟩ := includedFold_ok ts [] hne
    refine ⟨some tbl, ?_⟩
    unfold buildIncluded
    dsimp only
    rw [show branchTuples (.map kvs) Option.none = .ok ts from by
      unfold branchTuples; rw [hbs]; exact hts]
    dsimp only
    rw [htbl]

/-- Subscripting a mapping fails only with `KeyError`. -/
theorem getItem_map_error (kvs : List (String × Doc)) (k : String) (err : PyErr)
    (h : Doc.getItem (.map kvs) k = .error err) : err = .keyError := by
  unfold Doc.getItem at h
  dsimp only at h
  cases hl : lookupD kvs k with
  | some v => rw [hl] at h; exact absurd h (by simp)
  | none => rw [hl] at h; simpa using h.symm

/-- When every document is a mapping with a scalar id if any, a document
without the reserved id field makes the document-indexing loop raise
`KeyError`. -/
theorem buildDocs_missing :
    ∀ (ds : List Doc) (inc : Option Doc),
      (inc = Option.none ∨ ∃ g, inc = some g ∧ includeWF g = true) →
      (∀ d ∈ ds, ∃ kvs, d = .map kvs) →
      (∀ d ∈ ds, ∀ v, d.getItem "_id" = .ok v → ∃ s, v = .leaf s) →
      (∃ d ∈ ds, d.getItem "_id" = .error .keyError) →
      ∀ ids idx, buildIndexDocs ds inc ids idx = .error .keyError
  | [], _, _, _, _, hmiss, _, _ => by
    obtain ⟨d, hd, _⟩ := hmiss
    exact absurd hd (by simp)
  | d0 :: ds, inc, hinc, hmaps, hids, hmiss, ids, idx => by
    obtain ⟨kvs0, rfl⟩ := hmaps d0 (by simp)
    simp only [buildIndexDocs]
    cases hg : Doc.getItem (.map kvs0) "_id" with
    | error err =>
      obtain rfl := getItem_map_error kvs0 "_id" err hg
      rfl
    | ok v =>
      obtain ⟨s, rfl⟩ := hids (.map kvs0) (by simp) v hg
      dsimp only
      obtain ⟨ts, hts⟩ := branchTuples_map_ok kvs0 inc hinc
      rw [hts]
      dsimp only
      have hmiss' : ∃ d ∈ ds, d.getItem "_id" = .error .keyError := by
        obtain ⟨d, hd, herr⟩ := hmiss
        rcases List.mem_cons.mp hd with rfl | hd'
        · rw [hg] at herr
          exact absurd herr (by simp)
        · exact ⟨d, hd', herr⟩
      exact buildDocs_missing ds inc hinc (fun d hd => hmaps d (by simp [hd]))
        (fun d hd => hids d (by simp [hd])) hmiss' _ _

/-- C8.  Construction raises `KeyError` (`MissingIdError`) whenever a
supplied document lacks the reserved id field `_id` (documents being
mappings with hashable scalar ids, the include specification a well-formed
tree of booleans), and no engine is returned: construction either fully
succeeds or raises before any structure exists. -/
theorem c8_missing_id (docs : List Doc) (inc : Option Doc)
    (hinc : IncArgOk inc)
    (hmaps : ∀ d ∈ docs, ∃ kvs, d = .map kvs)
    (hids : ∀ d ∈ docs, ∀ v, d.getItem "_id" = .ok v → ∃ s, v = .leaf s)
    (hmiss : ∃ d ∈ docs, d.getItem "_id" = .error .keyError) :
    buildIndex (some docs) inc = .error .keyError
  ∧ ∀ e, buildIndex (some docs) inc ≠ .ok e := by
  have hmain : buildIndex (some docs) inc = .error .keyError := by
    obtain ⟨tbl, htbl⟩ := buildIncluded_ok inc hinc
    unfold buildIndex
    rw [htbl]
    dsimp only
    rw [buildDocs_missing docs inc hinc.incOk hmaps hids hmiss [] []]
  refine ⟨hmain, fun e he => ?_⟩
  rw [hmain] at he
  exact absurd he (by simp)

/-- C8, witness: a batch whose second document is an empty mapping. -/
theorem c8_witness :
    buildIndex (some [Doc.map [("_id", .leaf (.int 1))], Doc.map []]) Option.none
      = .error .keyError :=
  (c8_missing_id [Doc.map [("_id", .leaf (.int 1))], Doc.map []] Option.none
    (Or.inl rfl)
    (by
      intro d hd
      rcases List.mem_cons.mp hd with rfl | hd'
      · exact ⟨_, rfl⟩
      · rcases List.mem_cons.mp hd' with rfl | hd''
        · exact ⟨_, rfl⟩
        · exact absurd hd'' (by simp))
    (by
      intro d hd v hv
      rcases List.mem_cons.mp hd with rfl | hd'
      · refine ⟨.int 1, ?_⟩
        have h2 : (Except.ok (Doc.leaf (PyVal.int 1)) : Except PyErr Doc) = .ok v := hv
        simpa using h2.symm
      · rcases List.mem_cons.mp hd' with rfl | hd''
        · have h2 : (Except.error PyErr.keyError : Except PyErr Doc) = .ok v := hv
          exact absurd h2 (by simp)
        · exact absurd hd'' (by simp))
    ⟨Doc.map [], List.Mem.tail _ (List.Mem.head _), rfl⟩).1
